import Mathlib

/-!
Shallow embedding of `src/ab_testing.py`: an epsilon-greedy multi-armed
bandit simulator.  Python floats are modelled as rationals (`ℚ`); the
process-wide random sources (`random.random`, `random.choice`,
`np.random.random`) are modelled as an explicit stream of per-iteration
draws fed to `Experiment.run`.
-/

/-- One iteration's worth of random draws: `u` models `random.random()`
(the exploration test), `c` models the choice made by
`random.choice(range(len(events)))` (reduced modulo the number of arms),
and `v` models `np.random.random()` inside `RandomEvent.pull`. -/
structure Draw where
  u : ℚ
  c : ℕ
  v : ℚ

/-- The `RandomEvent` class: one bandit arm.  `winrate` is the true win
rate, `estimate` the running estimated win rate, `N` the number of pulls,
`history` the list of `(N, estimate)` pairs recorded by `update`. -/
structure RandomEvent where
  winrate : ℚ
  estimate : ℚ
  N : ℕ
  history : List (ℕ × ℚ)

/-- `RandomEvent.__init__`: estimate 0, no pulls, empty history. -/
def RandomEvent.new (winrate : ℚ) : RandomEvent :=
  { winrate := winrate, estimate := 0, N := 0, history := [] }

/-- `RandomEvent.update`: increments `N`, folds the result into the
running estimate via `estimate += (result - estimate) / N`, and appends
`(N, estimate)` to the history. -/
def RandomEvent.update (e : RandomEvent) (result : ℚ) : RandomEvent :=
  { e with
    N := e.N + 1
    estimate := e.estimate + (result - e.estimate) / ((e.N + 1 : ℕ) : ℚ)
    history := e.history ++ [(e.N + 1, e.estimate + (result - e.estimate) / ((e.N + 1 : ℕ) : ℚ))] }

/-- `RandomEvent.pull`: `return np.random.random() < self.winrate`.
The uniform draw is the explicit argument `u`; as a Python method call it
returns the boolean outcome together with the (unchanged) object state. -/
def RandomEvent.pull (e : RandomEvent) (u : ℚ) : Bool × RandomEvent :=
  (decide (u < e.winrate), e)

/-- Folds a list of outcomes into an arm with `RandomEvent.update`,
in order: the state of the arm after that sequence of `update` calls. -/
def updateAll (e : RandomEvent) (outs : List ℚ) : RandomEvent :=
  outs.foldl RandomEvent.update e

/-- `np.argmax` on a list of rationals: index of the first occurrence of
the maximal element, `none` on the empty list (where `np.argmax` raises
`ValueError`). -/
def argmax? : List ℚ → Option ℕ
  | [] => none
  | x :: xs =>
    match argmax? xs with
    | none => some 0
    | some j => if x < xs.getD j 0 then some (j + 1) else some 0

/-- `i` is the index of the first maximal element of `l`. -/
def isFirstArgmax (l : List ℚ) (i : ℕ) : Prop :=
  i < l.length ∧ (∀ j < l.length, l.getD j 0 ≤ l.getD i 0) ∧
    ∀ j < i, l.getD j 0 < l.getD i 0

instance (l : List ℚ) (i : ℕ) : Decidable (isFirstArgmax l i) := by
  unfold isFirstArgmax; infer_instance

/-- The `Experiment` class: configuration plus the three decision
counters, which are set to zero in `__init__` and mutated by `run`. -/
structure Experiment where
  probs : List ℚ
  initial_epsilon : ℚ
  iterations : ℕ
  num_explored : ℕ
  num_exploited : ℕ
  num_optimal : ℕ

/-- `Experiment.__init__`: stores the configuration and zeroes the
counters. -/
def Experiment.new (probs : List ℚ) (initial_epsilon : ℚ) (iterations : ℕ) : Experiment :=
  { probs := probs, initial_epsilon := initial_epsilon, iterations := iterations,
    num_explored := 0, num_exploited := 0, num_optimal := 0 }

/-- `Experiment.epsilon_func`: `val / (0.01 * t + 1)`. -/
def Experiment.epsilon_func (val : ℚ) (t : ℕ) : ℚ :=
  val / ((1 / 100) * (t : ℚ) + 1)

/-- The mutable state of one `run()` call: the experiment object (whose
counters are mutated), the list of freshly created arms, and the
per-iteration outcome sequence `results`. -/
structure RunState where
  exp : Experiment
  events : List RandomEvent
  results : List Bool

/-- The exploit selection
`np.argmax([event.estimate for event in events])`, with numpy's scalar
defaulted to `0` (unreachable: `events` is non-empty inside `run`). -/
def exploitIndex (events : List RandomEvent) : ℕ :=
  (argmax? (events.map (fun e => e.estimate))).getD 0

/-- The epsilon-greedy branch: if `u < epsilon` explore (uniform choice
among the arms, flag `true`), else exploit (first argmax of the current
estimates, flag `false`). -/
def chooseIndex (d : Draw) (epsilon : ℚ) (events : List RandomEvent) : ℕ × Bool :=
  if d.u < epsilon then (d.c % events.length, true)
  else (exploitIndex events, false)

/-- The body of the `for t in range(self.iterations)` loop in
`Experiment.run`: selects an arm, bumps the matching counters, pulls the
selected arm, records the outcome and updates the arm. -/
def stepRun (oi : ℕ) (stream : ℕ → Draw) (s : RunState) (t : ℕ) : RunState :=
  let d := stream t
  let epsilon := Experiment.epsilon_func s.exp.initial_epsilon t
  let sel := chooseIndex d epsilon s.events
  let exp1 :=
    if sel.2 then { s.exp with num_explored := s.exp.num_explored + 1 }
    else { s.exp with num_exploited := s.exp.num_exploited + 1 }
  let exp2 :=
    if sel.1 = oi then { exp1 with num_optimal := exp1.num_optimal + 1 } else exp1
  let pr := (s.events.getD sel.1 (RandomEvent.new 0)).pull d.v
  let ev2 := pr.2.update (if pr.1 then 1 else 0)
  { exp := exp2, events := s.events.set sel.1 ev2, results := s.results ++ [pr.1] }

/-- `Experiment.run`: computes `optimal_index = np.argmax(self.probs)`
(failing, like numpy, when `probs` is empty), creates one fresh
`RandomEvent` per probability, and iterates the epsilon-greedy loop. -/
def Experiment.run (e : Experiment) (stream : ℕ → Draw) : Option RunState :=
  match argmax? e.probs with
  | none => none
  | some oi =>
    some ((List.range e.iterations).foldl (stepRun oi stream)
      { exp := e, events := e.probs.map RandomEvent.new, results := [] })

theorem argmax?_cons_none (x : ℚ) (xs : List ℚ) (h : argmax? xs = none) :
    argmax? (x :: xs) = some 0 := by
  unfold argmax?
  rw [h]

theorem argmax?_cons_some (x : ℚ) (xs : List ℚ) (j : ℕ) (h : argmax? xs = some j) :
    argmax? (x :: xs) = if x < xs.getD j 0 then some (j + 1) else some 0 := by
  unfold argmax?
  rw [h]

theorem argmax?_eq_none_iff (l : List ℚ) : argmax? l = none ↔ l = [] := by
  cases l with
  | nil => simp [argmax?]
  | cons x xs =>
    cases hx : argmax? xs with
    | none => simp [argmax?_cons_none x xs hx]
    | some j =>
      rw [argmax?_cons_some x xs j hx]
      constructor
      · intro h
        split at h <;> simp_all
      · intro h
        simp at h

theorem argmax?_spec (l : List ℚ) (i : ℕ) (h : argmax? l = some i) :
    isFirstArgmax l i := by
  induction l generalizing i with
  | nil => simp [argmax?] at h
  | cons x xs ih =>
    cases hx : argmax? xs with
    | none =>
      rw [argmax?_cons_none x xs hx] at h
      obtain rfl : (0 : ℕ) = i := Option.some.inj h
      have hxs : xs = [] := (argmax?_eq_none_iff xs).mp hx
      subst hxs
      refine ⟨by simp, ?_, by omega⟩
      intro j hj
      obtain rfl : j = 0 := by simpa using hj
      simp
    | some j =>
      rw [argmax?_cons_some x xs j hx] at h
      obtain ⟨hjlen, hmax, hfirst⟩ := ih j hx
      by_cases hlt : x < xs.getD j 0
      · rw [if_pos hlt] at h
        obtain rfl : j + 1 = i := Option.some.inj h
        refine ⟨by simpa using Nat.succ_lt_succ hjlen, ?_, ?_⟩
        · intro k hk
          cases k with
          | zero => simpa using le_of_lt hlt
          | succ m =>
            simp only [List.getD_cons_succ]
            exact hmax m (by simpa using hk)
        · intro k hk
          cases k with
          | zero => simpa using hlt
          | succ m =>
            simp only [List.getD_cons_succ]
            exact hfirst m (by omega)
      · rw [if_neg hlt] at h
        rw [not_lt] at hlt
        obtain rfl : (0 : ℕ) = i := Option.some.inj h
        refine ⟨by simp, ?_, by omega⟩
        intro k hk
        cases k with
        | zero => simp
        | succ m =>
          simp only [List.getD_cons_succ, List.getD_cons_zero]
          exact le_trans (hmax m (by simpa using hk)) hlt

theorem updateAll_nil (e : RandomEvent) : updateAll e [] = e := rfl

theorem updateAll_singleton (e : RandomEvent) (r : ℚ) : updateAll e [r] = e.update r := rfl

theorem updateAll_append (e : RandomEvent) (l1 l2 : List ℚ) :
    updateAll e (l1 ++ l2) = updateAll (updateAll e l1) l2 := by
  simp [updateAll, List.foldl_append]

theorem update_estimate (e : RandomEvent) (r : ℚ) :
    (e.update r).estimate = e.estimate + (r - e.estimate) / ((e.N + 1 : ℕ) : ℚ) := rfl

theorem updateAll_N (e : RandomEvent) (outs : List ℚ) :
    (updateAll e outs).N = e.N + outs.length := by
  induction outs generalizing e with
  | nil => simp [updateAll_nil]
  | cons r rs ih =>
    show (updateAll (e.update r) rs).N = e.N + (r :: rs).length
    rw [ih]
    simp [RandomEvent.update]
    omega

theorem updateAll_estimate (w : ℚ) (outs : List ℚ) :
    (updateAll (RandomEvent.new w) outs).estimate = outs.sum / (outs.length : ℚ) := by
  induction outs using List.reverseRecOn with
  | nil => simp [updateAll_nil, RandomEvent.new]
  | append_singleton l r ih =>
    have hN : (updateAll (RandomEvent.new w) l).N = l.length := by
      rw [updateAll_N]; simp [RandomEvent.new]
    rw [updateAll_append, updateAll_singleton, update_estimate, hN, ih]
    simp only [List.sum_append, List.length_append, List.sum_cons, List.sum_nil,
      List.length_cons, List.length_nil, add_zero]
    rcases Nat.eq_zero_or_pos l.length with h0 | hpos
    · obtain rfl : l = [] := List.eq_nil_of_length_eq_zero h0
      norm_num
    · have hn : ((l.length : ℚ)) ≠ 0 := by
        exact_mod_cast Nat.pos_iff_ne_zero.mp hpos
      have hn1 : ((l.length : ℚ)) + 1 ≠ 0 := by positivity
      push_cast
      field_simp
      ring

theorem update_N (e : RandomEvent) (r : ℚ) : (e.update r).N = e.N + 1 := rfl

theorem chooseIndex_lt (d : Draw) (epsilon : ℚ) (events : List RandomEvent)
    (h : events ≠ []) : (chooseIndex d epsilon events).1 < events.length := by
  have hlen : 0 < events.length := List.length_pos.mpr h
  unfold chooseIndex
  split
  · exact Nat.mod_lt _ hlen
  · unfold exploitIndex
    cases hx : argmax? (events.map (fun e => e.estimate)) with
    | none =>
      exact absurd ((argmax?_eq_none_iff _).mp hx) (by simpa using h)
    | some j =>
      have := (argmax?_spec _ j hx).1
      simpa using this

theorem exploitIndex_isFirstArgmax (events : List RandomEvent) (h : events ≠ []) :
    isFirstArgmax (events.map (fun e => e.estimate)) (exploitIndex events) := by
  unfold exploitIndex
  cases hx : argmax? (events.map (fun e => e.estimate)) with
  | none => exact absurd ((argmax?_eq_none_iff _).mp hx) (by simpa using h)
  | some j => simpa using argmax?_spec _ j hx

theorem stepRun_exp_config (oi : ℕ) (stream : ℕ → Draw) (s : RunState) (t : ℕ) :
    (stepRun oi stream s t).exp.probs = s.exp.probs ∧
    (stepRun oi stream s t).exp.initial_epsilon = s.exp.initial_epsilon ∧
    (stepRun oi stream s t).exp.iterations = s.exp.iterations := by
  simp only [stepRun]
  split <;> split <;> simp

theorem stepRun_explore_exploit (oi : ℕ) (stream : ℕ → Draw) (s : RunState) (t : ℕ) :
    (stepRun oi stream s t).exp.num_explored + (stepRun oi stream s t).exp.num_exploited =
      s.exp.num_explored + s.exp.num_exploited + 1 := by
  simp only [stepRun]
  split <;> split <;> simp <;> omega

theorem stepRun_optimal (oi : ℕ) (stream : ℕ → Draw) (s : RunState) (t : ℕ) :
    (stepRun oi stream s t).exp.num_optimal =
      s.exp.num_optimal +
        (if (chooseIndex (stream t) (Experiment.epsilon_func s.exp.initial_epsilon t)
              s.events).1 = oi then 1 else 0) := by
  simp only [stepRun]
  split <;> split <;> simp

theorem stepRun_events_length (oi : ℕ) (stream : ℕ → Draw) (s : RunState) (t : ℕ) :
    (stepRun oi stream s t).events.length = s.events.length := by
  simp only [stepRun]
  simp

theorem stepRun_explored_eps0 (oi : ℕ) (stream : ℕ → Draw) (s : RunState) (t : ℕ)
    (heps : s.exp.initial_epsilon = 0) (hu : 0 ≤ (stream t).u) :
    (stepRun oi stream s t).exp.num_explored = s.exp.num_explored := by
  have hch : (chooseIndex (stream t) (Experiment.epsilon_func s.exp.initial_epsilon t)
      s.events).2 = false := by
    unfold chooseIndex
    rw [heps]
    have : Experiment.epsilon_func 0 t = 0 := by
      simp [Experiment.epsilon_func]
    rw [this, if_neg (not_lt.mpr hu)]
  simp only [stepRun, hch]
  split <;> simp

theorem sum_map_set (f : RandomEvent → ℕ) (l : List RandomEvent) (i : ℕ)
    (y d : RandomEvent) (h : i < l.length) :
    ((l.set i y).map f).sum + f (l.getD i d) = (l.map f).sum + f y := by
  induction l generalizing i with
  | nil => simp at h
  | cons x xs ih =>
    cases i with
    | zero => simp [List.set]; omega
    | succ n =>
      simp only [List.set, List.map_cons, List.sum_cons, List.getD_cons_succ]
      have := ih n (by simpa using h)
      omega

theorem stepRun_events_eq (oi : ℕ) (stream : ℕ → Draw) (s : RunState) (t : ℕ) :
    (stepRun oi stream s t).events =
      s.events.set
        (chooseIndex (stream t) (Experiment.epsilon_func s.exp.initial_epsilon t) s.events).1
        ((s.events.getD
            (chooseIndex (stream t) (Experiment.epsilon_func s.exp.initial_epsilon t)
              s.events).1 (RandomEvent.new 0)).update
          (if ((s.events.getD
              (chooseIndex (stream t) (Experiment.epsilon_func s.exp.initial_epsilon t)
                s.events).1 (RandomEvent.new 0)).pull (stream t).v).1 then 1 else 0)) := by
  simp only [stepRun, RandomEvent.pull]

theorem stepRun_sumN (oi : ℕ) (stream : ℕ → Draw) (s : RunState) (t : ℕ)
    (h : s.events ≠ []) :
    ((stepRun oi stream s t).events.map (fun e => e.N)).sum =
      (s.events.map (fun e => e.N)).sum + 1 := by
  have hlt := chooseIndex_lt (stream t)
    (Experiment.epsilon_func s.exp.initial_epsilon t) s.events h
  rw [stepRun_events_eq]
  have hkey := sum_map_set (fun e => e.N) s.events
    (chooseIndex (stream t) (Experiment.epsilon_func s.exp.initial_epsilon t) s.events).1
    ((s.events.getD
        (chooseIndex (stream t) (Experiment.epsilon_func s.exp.initial_epsilon t)
          s.events).1 (RandomEvent.new 0)).update
      (if ((s.events.getD
          (chooseIndex (stream t) (Experiment.epsilon_func s.exp.initial_epsilon t)
            s.events).1 (RandomEvent.new 0)).pull (stream t).v).1 then 1 else 0))
    (RandomEvent.new 0) hlt
  simp only [update_N] at hkey
  omega

/-- The bookkeeping invariant of one arm: one history entry per update,
entry `k` (zero-based) carrying pull count `k + 1`. -/
def eventWF (ev : RandomEvent) : Prop :=
  ev.history.length = ev.N ∧ ∀ k < ev.history.length, (ev.history.getD k (0, 0)).1 = k + 1

theorem eventWF_new (w : ℚ) : eventWF (RandomEvent.new w) := by
  constructor <;> simp [RandomEvent.new]

theorem eventWF_update (ev : RandomEvent) (r : ℚ) (h : eventWF ev) :
    eventWF (ev.update r) := by
  obtain ⟨hlen, hidx⟩ := h
  constructor
  · simp [RandomEvent.update]
    omega
  · intro k hk
    simp only [RandomEvent.update, List.length_append, List.length_cons,
      List.length_nil] at hk ⊢
    rcases Nat.lt_or_ge k ev.history.length with hklt | hkge
    · rw [List.getD_append _ _ _ _ hklt]
      exact hidx k hklt
    · have hke : k = ev.history.length := by omega
      subst hke
      rw [List.getD_append_right _ _ _ _ hkge]
      simp [hlen]

theorem stepRun_eventWF (oi : ℕ) (stream : ℕ → Draw) (s : RunState) (t : ℕ)
    (h : ∀ ev ∈ s.events, eventWF ev) :
    ∀ ev ∈ (stepRun oi stream s t).events, eventWF ev := by
  intro ev hev
  rw [stepRun_events_eq] at hev
  rcases List.mem_or_eq_of_mem_set hev with hmem | heq
  · exact h ev hmem
  · subst heq
    apply eventWF_update
    rcases Nat.lt_or_ge
        (chooseIndex (stream t) (Experiment.epsilon_func s.exp.initial_epsilon t)
          s.events).1 s.events.length with hlt | hge
    · apply h
      rw [List.getD_eq_getElem _ _ hlt]
      exact List.getElem_mem hlt
    · rw [List.getD_eq_default _ _ hge]
      exact eventWF_new 0

theorem foldl_config (oi : ℕ) (stream : ℕ → Draw) (ts : List ℕ) (s : RunState) :
    (ts.foldl (stepRun oi stream) s).exp.probs = s.exp.probs ∧
    (ts.foldl (stepRun oi stream) s).exp.initial_epsilon = s.exp.initial_epsilon ∧
    (ts.foldl (stepRun oi stream) s).exp.iterations = s.exp.iterations := by
  induction ts generalizing s with
  | nil => exact ⟨rfl, rfl, rfl⟩
  | cons a ts ih =>
    simp only [List.foldl_cons]
    obtain ⟨h1, h2, h3⟩ := ih (stepRun oi stream s a)
    obtain ⟨g1, g2, g3⟩ := stepRun_exp_config oi stream s a
    exact ⟨h1.trans g1, h2.trans g2, h3.trans g3⟩

theorem foldl_explore_exploit (oi : ℕ) (stream : ℕ → Draw) (ts : List ℕ) (s : RunState) :
    (ts.foldl (stepRun oi stream) s).exp.num_explored +
        (ts.foldl (stepRun oi stream) s).exp.num_exploited =
      s.exp.num_explored + s.exp.num_exploited + ts.length := by
  induction ts generalizing s with
  | nil => simp
  | cons a ts ih =>
    simp only [List.foldl_cons, List.length_cons]
    rw [ih]
    have := stepRun_explore_exploit oi stream s a
    omega

theorem foldl_optimal_le (oi : ℕ) (stream : ℕ → Draw) (ts : List ℕ) (s : RunState) :
    (ts.foldl (stepRun oi stream) s).exp.num_optimal ≤ s.exp.num_optimal + ts.length := by
  induction ts generalizing s with
  | nil => simp
  | cons a ts ih =>
    simp only [List.foldl_cons, List.length_cons]
    have h1 := ih (stepRun oi stream s a)
    have h2 := stepRun_optimal oi stream s a
    have : (stepRun oi stream s a).exp.num_optimal ≤ s.exp.num_optimal + 1 := by
      rw [h2]; split <;> omega
    omega

theorem foldl_events_length (oi : ℕ) (stream : ℕ → Draw) (ts : List ℕ) (s : RunState) :
    (ts.foldl (stepRun oi stream) s).events.length = s.events.length := by
  induction ts generalizing s with
  | nil => rfl
  | cons a ts ih =>
    simp only [List.foldl_cons]
    rw [ih, stepRun_events_length]

theorem foldl_explored_eps0 (oi : ℕ) (stream : ℕ → Draw) (ts : List ℕ) (s : RunState)
    (heps : s.exp.initial_epsilon = 0) (hu : ∀ t, 0 ≤ (stream t).u) :
    (ts.foldl (stepRun oi stream) s).exp.num_explored = s.exp.num_explored := by
  induction ts generalizing s with
  | nil => rfl
  | cons a ts ih =>
    simp only [List.foldl_cons]
    have hpre : (stepRun oi stream s a).exp.initial_epsilon = 0 :=
      (stepRun_exp_config oi stream s a).2.1.trans heps
    rw [ih _ hpre, stepRun_explored_eps0 oi stream s a heps (hu a)]

theorem foldl_sumN (oi : ℕ) (stream : ℕ → Draw) (ts : List ℕ) (s : RunState)
    (h : s.events ≠ []) :
    ((ts.foldl (stepRun oi stream) s).events.map (fun e => e.N)).sum =
      (s.events.map (fun e => e.N)).sum + ts.length := by
  induction ts generalizing s with
  | nil => simp
  | cons a ts ih =>
    simp only [List.foldl_cons, List.length_cons]
    have hne : (stepRun oi stream s a).events ≠ [] := by
      intro hc
      apply h
      have := stepRun_events_length oi stream s a
      rw [hc] at this
      exact List.eq_nil_of_length_eq_zero this.symm
    rw [ih _ hne, stepRun_sumN oi stream s a h]
    omega

theorem foldl_eventWF (oi : ℕ) (stream : ℕ → Draw) (ts : List ℕ) (s : RunState)
    (h : ∀ ev ∈ s.events, eventWF ev) :
    ∀ ev ∈ (ts.foldl (stepRun oi stream) s).events, eventWF ev := by
  induction ts generalizing s with
  | nil => exact h
  | cons a ts ih =>
    simp only [List.foldl_cons]
    exact ih _ (stepRun_eventWF oi stream s a h)

theorem run_eq_some (e : Experiment) (stream : ℕ → Draw) (st : RunState)
    (h : e.run stream = some st) :
    ∃ oi, argmax? e.probs = some oi ∧
      st = (List.range e.iterations).foldl (stepRun oi stream)
        { exp := e, events := e.probs.map RandomEvent.new, results := [] } := by
  unfold Experiment.run at h
  split at h
  · exact absurd h (by simp)
  · rename_i oi hx
    exact ⟨oi, hx, (Option.some.inj h).symm⟩

theorem run_ne_nil_some (e : Experiment) (stream : ℕ → Draw) (h : e.probs ≠ []) :
    ∃ st, e.run stream = some st := by
  unfold Experiment.run
  split
  · rename_i hx
    exact absurd ((argmax?_eq_none_iff _).mp hx) h
  · exact ⟨_, rfl⟩

/-- C1: for every arm and every finite sequence of 0/1 outcomes fed to
`update` in order, after `n` calls to `update` the field `estimate` equals
the arithmetic mean of those `n` outcomes, and this holds after every
prefix of the sequence. -/
theorem arm_estimate_is_running_mean (w : ℚ) (outs : List ℚ)
    (h : ∀ x ∈ outs, x = 0 ∨ x = 1) (k : ℕ) :
    (updateAll (RandomEvent.new w) (outs.take k)).N = (outs.take k).length ∧
    (updateAll (RandomEvent.new w) (outs.take k)).estimate =
      (outs.take k).sum / ((outs.take k).length : ℚ) := by
  constructor
  · rw [updateAll_N]
    simp [RandomEvent.new]
  · exact updateAll_estimate w (outs.take k)

theorem arm_estimate_is_running_mean_witness :
    (updateAll (RandomEvent.new 0) ([(1 : ℚ), 0, 1].take 2)).N =
        ([(1 : ℚ), 0, 1].take 2).length ∧
    (updateAll (RandomEvent.new 0) ([(1 : ℚ), 0, 1].take 2)).estimate =
      ([(1 : ℚ), 0, 1].take 2).sum / ((([(1 : ℚ), 0, 1].take 2).length : ℕ) : ℚ) :=
  arm_estimate_is_running_mean 0 [1, 0, 1] (by norm_num) 2

/-- C2 (counterexample): on the same `Experiment` instance the counters are
not reset by `run()`: with `probs = [1/2]`, `initial_epsilon = 0`,
`iterations = 1`, after a second completed `run()` the sum
`num_explored + num_exploited` is `2`, not `iterations = 1`. -/
theorem run_counters_not_reset_counterexample :
    ((Experiment.run (Experiment.new [(1 : ℚ)/2] 0 1) (fun _ => ⟨0, 0, 0⟩)).bind
        (fun st1 => Experiment.run st1.exp (fun _ => ⟨0, 0, 0⟩))).map
        (fun st2 => (st2.exp.iterations, st2.exp.num_explored + st2.exp.num_exploited)) =
      some (1, 2) ∧ (2 : ℕ) ≠ 1 := by
  constructor
  · norm_num [Experiment.run, Experiment.new, stepRun, chooseIndex, exploitIndex, argmax?,
      Experiment.epsilon_func, RandomEvent.new, RandomEvent.pull, RandomEvent.update,
      List.range_succ, Option.bind]
  · decide

/-- C2 (amended): after any completed `run()`,
`num_explored + num_exploited` equals its value at entry plus
`iterations`; in particular it equals `iterations` exactly when the
counters were zero at entry (fresh `Experiment`), and a second `run()` on
the same instance accumulates instead of resetting. -/
theorem run_explore_exploit_total (e : Experiment) (stream : ℕ → Draw) (st : RunState)
    (h : e.run stream = some st) :
    st.exp.num_explored + st.exp.num_exploited =
      e.num_explored + e.num_exploited + e.iterations := by
  obtain ⟨oi, hx, rfl⟩ := run_eq_some e stream st h
  have h2 := foldl_explore_exploit oi stream (List.range e.iterations)
    { exp := e, events := e.probs.map RandomEvent.new, results := [] }
  simpa using h2

theorem run_explore_exploit_total_witness :
    ∃ st, Experiment.run (Experiment.new [(1 : ℚ)/2] 0 1) (fun _ => ⟨0, 0, 0⟩) = some st ∧
      st.exp.num_explored + st.exp.num_exploited = 1 := by
  obtain ⟨st, hst⟩ := run_ne_nil_some (Experiment.new [(1 : ℚ)/2] 0 1)
    (fun _ => ⟨0, 0, 0⟩) (by simp [Experiment.new])
  refine ⟨st, hst, ?_⟩
  rw [run_explore_exploit_total _ _ _ hst]
  simp [Experiment.new]

/-- C3: `epsilon_func e0 t = e0 / (0.01 * t + 1)`; for fixed `e0 ≥ 0` it
is monotonically non-increasing in `t`, and at `t = 0` it equals `e0`. -/
theorem epsilon_func_decay (e0 : ℚ) (h : 0 ≤ e0) (s t : ℕ) (hst : s ≤ t) :
    Experiment.epsilon_func e0 t = e0 / ((1 / 100) * (t : ℚ) + 1) ∧
    Experiment.epsilon_func e0 t ≤ Experiment.epsilon_func e0 s ∧
    Experiment.epsilon_func e0 0 = e0 := by
  refine ⟨rfl, ?_, by simp [Experiment.epsilon_func]⟩
  unfold Experiment.epsilon_func
  have h1 : (0 : ℚ) < (1 / 100) * (s : ℚ) + 1 := by positivity
  have h2 : ((1 / 100) : ℚ) * (s : ℚ) + 1 ≤ (1 / 100) * (t : ℚ) + 1 := by
    have hc : ((s : ℚ)) ≤ (t : ℚ) := by exact_mod_cast hst
    linarith
  gcongr

theorem epsilon_func_decay_witness :
    Experiment.epsilon_func 1 3 = 1 / ((1 / 100) * ((3 : ℕ) : ℚ) + 1) ∧
    Experiment.epsilon_func 1 3 ≤ Experiment.epsilon_func 1 0 ∧
    Experiment.epsilon_func 1 0 = 1 :=
  epsilon_func_decay 1 (by norm_num) 0 3 (by norm_num)

/-- C4: `run()` computes `optimal_index` as the index of the first maximal
true probability, and on every exploit step (uniform draw not below
epsilon) it selects the arm whose current estimate is maximal, ties broken
by lowest index. -/
theorem run_selects_first_argmax (e : Experiment) (oi : ℕ)
    (h : argmax? e.probs = some oi) (d : Draw) (epsilon : ℚ)
    (events : List RandomEvent) (hne : events ≠ []) (hu : ¬ d.u < epsilon) :
    isFirstArgmax e.probs oi ∧
    chooseIndex d epsilon events = (exploitIndex events, false) ∧
    isFirstArgmax (events.map (fun ev => ev.estimate)) (exploitIndex events) := by
  refine ⟨argmax?_spec _ _ h, ?_, exploitIndex_isFirstArgmax events hne⟩
  unfold chooseIndex
  rw [if_neg hu]

theorem run_selects_first_argmax_witness :
    isFirstArgmax (Experiment.new [(1 : ℚ)/2, 3/4, 3/4] 0 5).probs 1 ∧
    chooseIndex ⟨1, 0, 0⟩ 0 [RandomEvent.new ((1 : ℚ)/2)] =
      (exploitIndex [RandomEvent.new ((1 : ℚ)/2)], false) ∧
    isFirstArgmax ([RandomEvent.new ((1 : ℚ)/2)].map (fun ev => ev.estimate))
      (exploitIndex [RandomEvent.new ((1 : ℚ)/2)]) :=
  run_selects_first_argmax (Experiment.new [(1 : ℚ)/2, 3/4, 3/4] 0 5) 1
    (by norm_num [Experiment.new, argmax?]) ⟨1, 0, 0⟩ 0
    [RandomEvent.new ((1 : ℚ)/2)] (by simp) (by norm_num)

/-- C5: in every loop iteration `num_optimal` is incremented exactly when
the selected arm's index equals `optimal_index` (whether the selection
explored or exploited), and after a completed `run()` on a fresh
`Experiment` it is at most `iterations`. -/
theorem optimal_count_increment (oi : ℕ) (stream : ℕ → Draw) (s : RunState) (t : ℕ)
    (e : Experiment) (st : RunState) (h0 : e.num_optimal = 0)
    (hrun : e.run stream = some st) :
    (stepRun oi stream s t).exp.num_optimal =
      s.exp.num_optimal +
        (if (chooseIndex (stream t) (Experiment.epsilon_func s.exp.initial_epsilon t)
            s.events).1 = oi then 1 else 0) ∧
    st.exp.num_optimal ≤ e.iterations := by
  refine ⟨stepRun_optimal oi stream s t, ?_⟩
  obtain ⟨oi2, hx, rfl⟩ := run_eq_some e stream st hrun
  have hle := foldl_optimal_le oi2 stream (List.range e.iterations)
    { exp := e, events := e.probs.map RandomEvent.new, results := [] }
  simpa [h0] using hle

theorem optimal_count_increment_witness :
    ∃ st, Experiment.run (Experiment.new [(1 : ℚ)/2] 0 1) (fun _ => ⟨0, 0, 0⟩) = some st ∧
      ((stepRun 0 (fun _ => ⟨0, 0, 0⟩) ⟨Experiment.new [(1 : ℚ)/2] 0 1,
            [RandomEvent.new ((1 : ℚ)/2)], []⟩ 0).exp.num_optimal =
          (⟨Experiment.new [(1 : ℚ)/2] 0 1, [RandomEvent.new ((1 : ℚ)/2)], []⟩ :
              RunState).exp.num_optimal +
            (if (chooseIndex ((fun _ => (⟨0, 0, 0⟩ : Draw)) 0)
                (Experiment.epsilon_func
                  (⟨Experiment.new [(1 : ℚ)/2] 0 1, [RandomEvent.new ((1 : ℚ)/2)], []⟩ :
                    RunState).exp.initial_epsilon 0)
                (⟨Experiment.new [(1 : ℚ)/2] 0 1, [RandomEvent.new ((1 : ℚ)/2)], []⟩ :
                  RunState).events).1 = 0 then 1 else 0)) ∧
        st.exp.num_optimal ≤ (Experiment.new [(1 : ℚ)/2] 0 1).iterations := by
  obtain ⟨st, hst⟩ := run_ne_nil_some (Experiment.new [(1 : ℚ)/2] 0 1)
    (fun _ => ⟨0, 0, 0⟩) (by simp [Experiment.new])
  exact ⟨st, hst, optimal_count_increment 0 (fun _ => ⟨0, 0, 0⟩)
    ⟨Experiment.new [(1 : ℚ)/2] 0 1, [RandomEvent.new ((1 : ℚ)/2)], []⟩ 0
    (Experiment.new [(1 : ℚ)/2] 0 1) st rfl hst⟩

/-- C6: `run()` is deterministic as a function of the configuration and
the injected random stream: identical configurations and identical streams
yield identical per-arm histories, identical outcome sequences and
identical explore/exploit/optimal counters. -/
theorem run_deterministic (p : List ℚ) (eps : ℚ) (n : ℕ) (s1 s2 : ℕ → Draw)
    (hs : ∀ t, s1 t = s2 t) :
    ((Experiment.new p eps n).run s1).map
        (fun st => (st.events.map (fun ev => ev.history), st.results,
          st.exp.num_explored, st.exp.num_exploited, st.exp.num_optimal)) =
      ((Experiment.new p eps n).run s2).map
        (fun st => (st.events.map (fun ev => ev.history), st.results,
          st.exp.num_explored, st.exp.num_exploited, st.exp.num_optimal)) := by
  have hfun : s1 = s2 := funext hs
  rw [hfun]

theorem run_deterministic_witness :
    ((Experiment.new [(1 : ℚ)/2] (1/10) 2).run (fun _ => ⟨0, 0, 0⟩)).map
        (fun st => (st.events.map (fun ev => ev.history), st.results,
          st.exp.num_explored, st.exp.num_exploited, st.exp.num_optimal)) =
      ((Experiment.new [(1 : ℚ)/2] (1/10) 2).run (fun _ => ⟨0, 0, 0⟩)).map
        (fun st => (st.events.map (fun ev => ev.history), st.results,
          st.exp.num_explored, st.exp.num_exploited, st.exp.num_optimal)) :=
  run_deterministic [(1 : ℚ)/2] (1/10) 2 (fun _ => ⟨0, 0, 0⟩) (fun _ => ⟨0, 0, 0⟩)
    (fun _ => rfl)

/-- C7: with an empty `true_probabilities` list, `run()` fails at entry
(the `np.argmax` of an empty sequence raises) and never proceeds with an
empty arm set. -/
theorem run_empty_probs_fails (e : Experiment) (stream : ℕ → Draw) (h : e.probs = []) :
    e.run stream = none := by
  unfold Experiment.run
  split
  · rfl
  · rename_i oi hx
    rw [h] at hx
    simp [argmax?] at hx

theorem run_empty_probs_fails_witness :
    Experiment.run (Experiment.new [] 0 5) (fun _ => ⟨0, 0, 0⟩) = none :=
  run_empty_probs_fails (Experiment.new [] 0 5) (fun _ => ⟨0, 0, 0⟩) rfl

/-- C8: with `initial_epsilon = 0` and uniform draws in `[0, 1)`, a
completed `run()` on a fresh `Experiment` never explores: the epsilon
schedule is `0` at every iteration and the strict `<` comparison of the
draw against it never fires. -/
theorem run_zero_epsilon_never_explores (e : Experiment) (stream : ℕ → Draw)
    (st : RunState) (heps : e.initial_epsilon = 0) (hfresh : e.num_explored = 0)
    (hu : ∀ t, 0 ≤ (stream t).u ∧ (stream t).u < 1)
    (hrun : e.run stream = some st) :
    (∀ t, Experiment.epsilon_func e.initial_epsilon t = 0) ∧
    st.exp.num_explored = 0 := by
  constructor
  · intro t
    rw [heps]
    simp [Experiment.epsilon_func]
  · obtain ⟨oi, hx, rfl⟩ := run_eq_some e stream st hrun
    have hz := foldl_explored_eps0 oi stream (List.range e.iterations)
      { exp := e, events := e.probs.map RandomEvent.new, results := [] } heps
      (fun t => (hu t).1)
    simpa [hfresh] using hz

theorem run_zero_epsilon_never_explores_witness :
    ∃ st, Experiment.run (Experiment.new [(1 : ℚ)/2] 0 3) (fun _ => ⟨0, 0, 0⟩) = some st ∧
      (∀ t, Experiment.epsilon_func (Experiment.new [(1 : ℚ)/2] 0 3).initial_epsilon t = 0) ∧
      st.exp.num_explored = 0 := by
  obtain ⟨st, hst⟩ := run_ne_nil_some (Experiment.new [(1 : ℚ)/2] 0 3)
    (fun _ => ⟨0, 0, 0⟩) (by simp [Experiment.new])
  exact ⟨st, hst, run_zero_epsilon_never_explores (Experiment.new [(1 : ℚ)/2] 0 3)
    (fun _ => ⟨0, 0, 0⟩) st rfl rfl (fun t => ⟨le_refl 0, by norm_num⟩) hst⟩

/-- C9: `pull()` leaves every field of the arm unchanged (pure sampling),
and `update` never mutates `winrate` (the true probability is fixed at
creation). -/
theorem pull_pure_winrate_immutable (ev : RandomEvent) (u r : ℚ) :
    (ev.pull u).2.winrate = ev.winrate ∧ (ev.pull u).2.estimate = ev.estimate ∧
    (ev.pull u).2.N = ev.N ∧ (ev.pull u).2.history = ev.history ∧
    (ev.update r).winrate = ev.winrate :=
  ⟨rfl, rfl, rfl, rfl, rfl⟩

/-- C10: each loop iteration updates exactly one arm, so after a completed
`run()` the pull counts `N` sum to `iterations`; each arm's history has
length `N` and its zero-based entry `k` carries pull count `k + 1`. -/
theorem run_pull_accounting (e : Experiment) (stream : ℕ → Draw) (st : RunState)
    (hrun : e.run stream = some st) :
    ((st.events.map (fun ev => ev.N)).sum = e.iterations) ∧
    ∀ ev ∈ st.events, ev.history.length = ev.N ∧
      ∀ k < ev.history.length, (ev.history.getD k (0, 0)).1 = k + 1 := by
  obtain ⟨oi, hx, rfl⟩ := run_eq_some e stream st hrun
  constructor
  · have hne : e.probs.map RandomEvent.new ≠ [] := by
      intro hc
      have hp : e.probs = [] := by simpa using hc
      rw [hp] at hx
      simp [argmax?] at hx
    have hsum := foldl_sumN oi stream (List.range e.iterations)
      { exp := e, events := e.probs.map RandomEvent.new, results := [] } hne
    have hzero : (List.map ((fun ev => ev.N) ∘ RandomEvent.new) e.probs).sum = 0 := by
      apply List.sum_eq_zero
      intro x hxm
      obtain ⟨w, _, rfl⟩ := List.mem_map.mp hxm
      rfl
    simpa [hzero] using hsum
  · have hWF : ∀ ev ∈ e.probs.map RandomEvent.new, eventWF ev := by
      intro ev hev
      obtain ⟨w, _, rfl⟩ := List.mem_map.mp hev
      exact eventWF_new w
    exact foldl_eventWF oi stream (List.range e.iterations)
      { exp := e, events := e.probs.map RandomEvent.new, results := [] } hWF

theorem run_pull_accounting_witness :
    ∃ st, Experiment.run (Experiment.new [(1 : ℚ)/2, 1] 0 2) (fun _ => ⟨0, 1, 0⟩) = some st ∧
      ((st.events.map (fun ev => ev.N)).sum = (Experiment.new [(1 : ℚ)/2, 1] 0 2).iterations) ∧
      ∀ ev ∈ st.events, ev.history.length = ev.N ∧
        ∀ k < ev.history.length, (ev.history.getD k (0, 0)).1 = k + 1 := by
  obtain ⟨st, hst⟩ := run_ne_nil_some (Experiment.new [(1 : ℚ)/2, 1] 0 2)
    (fun _ => ⟨0, 1, 0⟩) (by simp [Experiment.new])
  exact ⟨st, hst, run_pull_accounting (Experiment.new [(1 : ℚ)/2, 1] 0 2)
    (fun _ => ⟨0, 1, 0⟩) st hst⟩
